import Mathlib

/-!
Verification of `src/librustc_mir/graphviz.rs`: the MIR-to-graphviz DOT
renderer.  The data model (MIR graphs, basic blocks, terminators, variable
declarations) and the five emitters (`write_mir_graphviz`, `write_node_label`,
`write_node`, `write_edges`, `write_graph_label`) are embedded shallowly.
Statements, types and terminator heads are represented by their debug-text
strings, since the renderer only ever formats them with `{:?}` (or receives
them as already-formatted strings) before escaping.

The output sink (`io::Write`) is modelled as a list of written chunks, one
chunk per `write!`/`writeln!` call, together with an optional failure point:
`failAt = some k` means the sink permanently fails from the k-th write attempt
on (counting all chunks ever written), `failAt = none` means writes always
succeed.  Each emitter threads the sink explicitly and short-circuits on the
first failed write, mirroring `try!`.
-/

namespace MirGraphviz

/-- Mutability flag of a MIR variable declaration. -/
inductive Mutability
  | Mut
  | Not

deriving instance DecidableEq, Repr for Mutability

/-- A function-argument declaration: only its (debug-printed) type is used. -/
structure ArgDecl where
  ty : String

/-- A user-variable declaration: mutability, type, and source-level name. -/
structure VarDecl where
  mutability : Mutability
  ty : String
  name : String

/-- A compiler-introduced temporary declaration. -/
structure TempDecl where
  ty : String

deriving instance DecidableEq, Repr for ArgDecl
deriving instance DecidableEq, Repr for VarDecl
deriving instance DecidableEq, Repr for TempDecl

/-- Return type of the function: converging with a type, or diverging. -/
inductive FnOutput
  | FnConverging (ty : String)
  | FnDiverging

deriving instance DecidableEq, Repr for FnOutput

/-- Modelled from the spec: the `Terminator` type of `rustc::mir::repr` is not
part of this subsystem's sources; per the spec it exposes an order-aligned
successor list and successor-label list plus a short textual head summary
(`fmt_head`).  We model it abstractly by those three projections.  The
successor/label lists are stored separately so that a length mismatch is
expressible. -/
structure Terminator where
  successors : List Nat
  labels : List String
  head : String

deriving instance DecidableEq, Repr for Terminator

/-- One basic block: an ordered statement list and exactly one terminator. -/
structure BasicBlockData where
  statements : List String
  terminator : Terminator

deriving instance DecidableEq, Repr for BasicBlockData

/-- A MIR graph: declarations, return type, and the dense block list.
A `BasicBlock` is its zero-based index into `basic_blocks`. -/
structure Mir where
  arg_decls : List ArgDecl
  var_decls : List VarDecl
  temp_decls : List TempDecl
  return_ty : FnOutput
  basic_blocks : List BasicBlockData

deriving instance DecidableEq, Repr for Mir

/-- Modelled from the spec: the type context only serves as the external
function-identifier-to-display-name resolver (`tcx.map.path_to_string`). -/
structure TyCtxt where
  path_to_string : Nat → String

/-- `Mir::basic_block_data`: fetch a block by index (total, with a default for
out-of-range indices; the renderer assumes a complete, consistent graph). -/
def Mir.basic_block_data (mir : Mir) (b : Nat) : BasicBlockData :=
  mir.basic_blocks.getD b (BasicBlockData.mk [] (Terminator.mk [] [] ""))

/-- `Mir::all_basic_blocks`: the block indices in order. -/
def Mir.all_basic_blocks (mir : Mir) : List Nat :=
  List.range mir.basic_blocks.length

/-- Modelled from the spec: the external dot crate's `escape_html` (the
Escaper) is not in this subsystem's sources.  Per the spec it must escape at
minimum angle brackets, ampersands and quotes, deterministically and totally.
Character-wise translation table. -/
def escapeChar (c : Char) : List Char :=
  if c = '&' then "&amp;".data
  else if c = '"' then "&quot;".data
  else if c = '<' then "&lt;".data
  else if c = '>' then "&gt;".data
  else [c]

/-- Modelled from the spec: `dot::escape_html`, applied to every character. -/
def escape_html (s : String) : String :=
  List.asString (s.data.flatMap escapeChar)

/-- `escape` of the source: debug-format a value and escape it.  Values are
embedded as their debug-text strings. -/
def escape (t : String) : String :=
  escape_html t

/-- Modelled from the spec: the positional pseudo-name of argument `i`
(the debug rendering of `Lvalue::Arg(i)`). -/
def argSlot (i : Nat) : String := "arg" ++ Nat.repr i

/-- Modelled from the spec: the name slot of user variable `i`
(the debug rendering of `Lvalue::Var(i)`). -/
def varSlot (i : Nat) : String := "var" ++ Nat.repr i

/-- Modelled from the spec: the name slot of temporary `i`
(the debug rendering of `Lvalue::Temp(i)`). -/
def tempSlot (i : Nat) : String := "tmp" ++ Nat.repr i

/-- The output sink: chunks written so far, and the write attempt index from
which on every write fails (`none` = writes never fail). -/
structure Sink where
  written : List String
  failAt : Option Nat

deriving instance DecidableEq, Repr for Sink

/-- Result of running an emitter: the sink afterwards and a success flag
(`ok = false` models a returned `io::Error`). -/
structure EmitResult where
  sink : Sink
  ok : Bool

deriving instance DecidableEq, Repr for EmitResult

/-- One `write!`/`writeln!` call: appends the chunk, or fails if the sink has
reached its failure point. -/
def wr (s : String) (t : Sink) : EmitResult :=
  match t.failAt with
  | some k =>
    if k ≤ t.written.length then EmitResult.mk t false
    else EmitResult.mk (Sink.mk (t.written ++ [s]) t.failAt) true
  | none => EmitResult.mk (Sink.mk (t.written ++ [s]) t.failAt) true

/-- `try!` sequencing: on failure, return immediately with the sink as it
stands; on success, continue. -/
def andThen (r : EmitResult) (f : Sink → EmitResult) : EmitResult :=
  if r.ok then f r.sink else r

/-- Sequential composition of two emission steps. -/
def eseq (f g : Sink → EmitResult) : Sink → EmitResult :=
  fun t => andThen (f t) g

/-- An emission step that writes nothing (`Ok(())`). -/
def skip : Sink → EmitResult :=
  fun t => EmitResult.mk t true

/-- A `for` loop of emission steps over a list. -/
def emitList (f : α → Sink → EmitResult) : List α → Sink → EmitResult
  | [], t => EmitResult.mk t true
  | a :: as, t => andThen (f a t) (emitList f as)

/-- Write every chunk of a list in order (the canonical appender). -/
def appendAll (out : List String) : Sink → EmitResult :=
  emitList wr out

/-- `node`: the DOT node identifier of a block, `"bb"` ++ decimal index. -/
def node (block : Nat) : String :=
  "bb" ++ Nat.repr block

/-- `write_node_label`: the label-table renderer.  One chunk per `write!` of
the source: table opener, header row, `init` callback output, the statement
row (three-part: opener, one cell line per statement, closer) if the block has
statements, the terminator-head row, `fini` callback output, table closer. -/
def write_node_label (block : Nat) (mir : Mir) (num_cols : Nat)
    (init fini : Sink → EmitResult) : Sink → EmitResult :=
  let data := mir.basic_block_data block
  eseq (wr "<table border=\"0\" cellborder=\"1\" cellspacing=\"0\">") <|
  eseq (wr ("<tr><td bgcolor=\"gray\" align=\"center\" colspan=\"" ++
            Nat.repr num_cols ++ "\">" ++ Nat.repr block ++ "</td></tr>")) <|
  eseq init <|
  eseq (if data.statements.isEmpty then skip else
          eseq (wr "<tr><td align=\"left\" balign=\"left\">") <|
          eseq (emitList (fun statement => wr (escape statement ++ "<br/>"))
                  data.statements) <|
          wr "</td></tr>") <|
  eseq (wr ("<tr><td align=\"left\">" ++ escape_html data.terminator.head ++
            "</td></tr>")) <|
  eseq fini <|
  wr "</table>\n"

/-- `write_node`: one DOT node declaration wrapping the label table rendered
with column count 1 and callbacks that write nothing. -/
def write_node (block : Nat) (mir : Mir) : Sink → EmitResult :=
  eseq (wr ("    " ++ node block ++ " [shape=\"none\", label=<")) <|
  eseq (write_node_label block mir 1 skip skip) <|
  wr ">];\n"

/-- `write_edges`: one DOT edge declaration per `(successor, label)` pair of
the zipped successor and label lists of the source block's terminator. -/
def write_edges (source : Nat) (mir : Mir) : Sink → EmitResult :=
  let terminator := (mir.basic_block_data source).terminator
  let labels := terminator.labels
  emitList
    (fun p => wr ("    " ++ node source ++ " -> " ++ node p.1 ++
                  " [label=\"" ++ p.2 ++ "\"];\n"))
    (terminator.successors.zip labels)

/-- `write_graph_label`: the whole-graph caption — function head with
arguments, return type (or `!`), then one line per user variable (with `mut`
iff the declaration is mutable, and a trailing name comment) and one line per
temporary (always `mut`, no comment). -/
def write_graph_label (tcx : TyCtxt) (nid : Nat) (mir : Mir) :
    Sink → EmitResult :=
  eseq (wr ("    label=<fn " ++ escape_html (tcx.path_to_string nid) ++ "(")) <|
  eseq (emitList (fun p =>
          eseq (if 0 < p.1 then wr ", " else skip) <|
          wr (argSlot p.1 ++ ": " ++ escape p.2.ty))
        mir.arg_decls.enum) <|
  eseq (wr ") -&gt; ") <|
  eseq (match mir.return_ty with
        | FnOutput.FnConverging ty => wr (escape ty)
        | FnOutput.FnDiverging => wr "!") <|
  eseq (wr "<br align=\"left\"/>") <|
  eseq (emitList (fun p =>
          eseq (wr "let ") <|
          eseq (if p.2.mutability = Mutability.Mut then wr "mut " else skip) <|
          wr (varSlot p.1 ++ ": " ++ escape p.2.ty ++ "; // " ++ p.2.name ++
              "<br align=\"left\"/>"))
        mir.var_decls.enum) <|
  eseq (emitList (fun p =>
          wr ("let mut " ++ tempSlot p.1 ++ ": " ++ escape p.2.ty ++
              ";<br align=\"left\"/>"))
        mir.temp_decls.enum) <|
  wr ">;\n"

/-- `write_mir_graphviz`: for every `(node id, MIR)` pair, the graph header,
the three style directives, the caption, all node declarations in index
order, all edge declarations in index order, and the footer. -/
def write_mir_graphviz (tcx : TyCtxt) (pairs : List (Nat × Mir)) :
    Sink → EmitResult :=
  emitList (fun p =>
    eseq (wr ("digraph Mir_" ++ Nat.repr p.1 ++ " \x7b\n")) <|
    eseq (wr "    graph [fontname=\"monospace\"];\n") <|
    eseq (wr "    node [fontname=\"monospace\"];\n") <|
    eseq (wr "    edge [fontname=\"monospace\"];\n") <|
    eseq (write_graph_label tcx p.1 p.2) <|
    eseq (emitList (fun block => write_node block p.2) p.2.all_basic_blocks) <|
    eseq (emitList (fun source => write_edges source p.2) p.2.all_basic_blocks) <|
    wr "\x7d\n")
    pairs

/-! ### Pure chunk lists

For each emitter, the list of chunks it writes on a sink that never fails.
These are proved extensionally equal to the emitters below; every claim about
emitted output is then a statement about these lists. -/

/-- The table-opening chunk of a node label. -/
def tableOpenChunk : String :=
  "<table border=\"0\" cellborder=\"1\" cellspacing=\"0\">"

/-- The header row of a node label: shaded cell with the block index. -/
def headerRowChunk (num_cols block : Nat) : String :=
  "<tr><td bgcolor=\"gray\" align=\"center\" colspan=\"" ++
    Nat.repr num_cols ++ "\">" ++ Nat.repr block ++ "</td></tr>"

/-- The chunks of the statement row: empty when there are no statements,
otherwise one row holding every statement's escaped text. -/
def stmtChunks (stmts : List String) : List String :=
  if stmts.isEmpty then [] else
    ["<tr><td align=\"left\" balign=\"left\">"] ++
      stmts.map (fun statement => escape statement ++ "<br/>") ++
      ["</td></tr>"]

/-- The terminator-head-summary row of a node label. -/
def termRowChunk (head : String) : String :=
  "<tr><td align=\"left\">" ++ escape_html head ++ "</td></tr>"

/-- All chunks of one node label table, given the chunks the two callbacks
contribute. -/
def nodeLabelChunks (block : Nat) (mir : Mir) (num_cols : Nat)
    (initRows finiRows : List String) : List String :=
  let data := mir.basic_block_data block
  [tableOpenChunk, headerRowChunk num_cols block] ++ initRows ++
    stmtChunks data.statements ++ [termRowChunk data.terminator.head] ++
    finiRows ++ ["</table>\n"]

/-- All chunks of one node declaration. -/
def nodeChunks (block : Nat) (mir : Mir) : List String :=
  ["    " ++ node block ++ " [shape=\"none\", label=<"] ++
    nodeLabelChunks block mir 1 [] [] ++ [">];\n"]

/-- One edge-declaration line. -/
def edgeChunk (source target : Nat) (label : String) : String :=
  "    " ++ node source ++ " -> " ++ node target ++
    " [label=\"" ++ label ++ "\"];\n"

/-- All edge-declaration chunks of one source block. -/
def edgesChunks (source : Nat) (mir : Mir) : List String :=
  let terminator := (mir.basic_block_data source).terminator
  (terminator.successors.zip terminator.labels).map
    (fun p => edgeChunk source p.1 p.2)

/-- The chunks of one argument entry of the caption head. -/
def argChunks (p : Nat × ArgDecl) : List String :=
  (if 0 < p.1 then [", "] else []) ++ [argSlot p.1 ++ ": " ++ escape p.2.ty]

/-- The chunks of one user-variable line of the caption. -/
def varChunks (p : Nat × VarDecl) : List String :=
  ["let "] ++ (if p.2.mutability = Mutability.Mut then ["mut "] else []) ++
    [varSlot p.1 ++ ": " ++ escape p.2.ty ++ "; // " ++ p.2.name ++
      "<br align=\"left\"/>"]

/-- The single chunk of one temporary line of the caption. -/
def tempChunk (p : Nat × TempDecl) : String :=
  "let mut " ++ tempSlot p.1 ++ ": " ++ escape p.2.ty ++ ";<br align=\"left\"/>"

/-- The chunk for the return type (or the divergence marker). -/
def returnTyChunk : FnOutput → String
  | FnOutput.FnConverging ty => escape ty
  | FnOutput.FnDiverging => "!"

/-- All chunks of the whole-graph caption. -/
def graphLabelChunks (tcx : TyCtxt) (nid : Nat) (mir : Mir) : List String :=
  ["    label=<fn " ++ escape_html (tcx.path_to_string nid) ++ "("] ++
    mir.arg_decls.enum.flatMap argChunks ++
    [") -&gt; ", returnTyChunk mir.return_ty, "<br align=\"left\"/>"] ++
    mir.var_decls.enum.flatMap varChunks ++
    mir.temp_decls.enum.map tempChunk ++
    [">;\n"]

/-- All chunks of one `digraph` block. -/
def graphChunks (tcx : TyCtxt) (p : Nat × Mir) : List String :=
  ["digraph Mir_" ++ Nat.repr p.1 ++ " \x7b\n",
   "    graph [fontname=\"monospace\"];\n",
   "    node [fontname=\"monospace\"];\n",
   "    edge [fontname=\"monospace\"];\n"] ++
    graphLabelChunks tcx p.1 p.2 ++
    p.2.all_basic_blocks.flatMap (fun block => nodeChunks block p.2) ++
    p.2.all_basic_blocks.flatMap (fun source => edgesChunks source p.2) ++
    ["\x7d\n"]

/-- All chunks written for a whole input collection. -/
def mirOutput (tcx : TyCtxt) (pairs : List (Nat × Mir)) : List String :=
  pairs.flatMap (graphChunks tcx)

/-- The chunks an emitter writes when started on a fresh, never-failing
sink. -/
def emittedBy (f : Sink → EmitResult) : List String :=
  (f (Sink.mk [] none)).sink.written

/-! ### Algebra of the sink model -/

theorem andThen_assoc (r : EmitResult) (f g : Sink → EmitResult) :
    andThen (andThen r f) g = andThen r (fun t => andThen (f t) g) := by
  unfold andThen
  by_cases h : r.ok = true
  · simp [h]
  · simp [h]

theorem andThen_congr (r : EmitResult) (f g : Sink → EmitResult)
    (h : ∀ t, f t = g t) : andThen r f = andThen r g := by
  unfold andThen
  simp [h]

theorem appendAll_nil (t : Sink) : appendAll [] t = EmitResult.mk t true := rfl

theorem appendAll_cons (s : String) (out : List String) (t : Sink) :
    appendAll (s :: out) t = andThen (wr s t) (appendAll out) := rfl

theorem wr_emits (s : String) : ∀ t, wr s t = appendAll [s] t := by
  intro t
  show wr s t = andThen (wr s t) (appendAll [])
  cases hr : wr s t with
  | mk sink ok =>
    cases ok
    · simp [andThen]
    · simp [andThen, appendAll_nil]

theorem appendAll_append (a b : List String) :
    ∀ t, appendAll (a ++ b) t = andThen (appendAll a t) (appendAll b) := by
  induction a with
  | nil => intro t; simp [appendAll_nil, andThen]
  | cons s a ih =>
    intro t
    rw [List.cons_append, appendAll_cons, appendAll_cons, andThen_assoc]
    exact andThen_congr _ _ _ ih

theorem skip_emits : ∀ t, skip t = appendAll [] t := by
  intro t; rfl

theorem eseq_emits {f g : Sink → EmitResult} {a b : List String}
    (hf : ∀ t, f t = appendAll a t) (hg : ∀ t, g t = appendAll b t) :
    ∀ t, eseq f g t = appendAll (a ++ b) t := by
  intro t
  rw [eseq, hf t, appendAll_append]
  exact andThen_congr _ _ _ hg

theorem emitList_emits {f : α → Sink → EmitResult} {g : α → List String}
    (hf : ∀ x t, f x t = appendAll (g x) t) :
    ∀ (l : List α) (t : Sink), emitList f l t = appendAll (l.flatMap g) t := by
  intro l
  induction l with
  | nil => intro t; rfl
  | cons x l ih =>
    intro t
    rw [List.flatMap_cons, appendAll_append, emitList]
    rw [hf x t]
    exact andThen_congr _ _ _ ih

theorem ite_emits {c : Prop} [Decidable c] {f g : Sink → EmitResult}
    {a b : List String}
    (hf : ∀ t, f t = appendAll a t) (hg : ∀ t, g t = appendAll b t) :
    ∀ t, (if c then f else g) t = appendAll (if c then a else b) t := by
  intro t
  by_cases h : c
  · simp [h, hf t]
  · simp [h, hg t]

/-- On a sink that never fails, writing a chunk list appends it and
succeeds. -/
theorem appendAll_none (out : List String) :
    ∀ t : Sink, t.failAt = none →
      appendAll out t =
        EmitResult.mk (Sink.mk (t.written ++ out) none) true := by
  induction out with
  | nil => intro t ht; cases t; simp_all [appendAll_nil]
  | cons s out ih =>
    intro t ht
    rw [appendAll_cons]
    unfold wr
    rw [ht]
    unfold andThen
    simpa using ih (Sink.mk (t.written ++ [s]) none) rfl

/-- On a sink that fails from attempt `k` on, writing a chunk list appends
exactly the prefix that fits before the failure point, and succeeds exactly
when the whole list fits. -/
theorem appendAll_fail (out : List String) :
    ∀ (w : List String) (k : Nat),
      appendAll out (Sink.mk w (some k)) =
        EmitResult.mk (Sink.mk (w ++ out.take (k - w.length)) (some k))
          (decide (out.length ≤ k - w.length)) := by
  induction out with
  | nil => intro w k; simp [appendAll_nil]
  | cons s out ih =>
    intro w k
    rw [appendAll_cons]
    by_cases hk : k ≤ w.length
    · have hw : wr s (Sink.mk w (some k)) =
          EmitResult.mk (Sink.mk w (some k)) false := by
        unfold wr; simp [hk]
      have h0 : k - w.length = 0 := by omega
      have hdec : decide ((s :: out).length ≤ k - w.length) = false := by
        simp [h0]
      rw [hw, hdec, h0]
      simp [andThen]
    · have hw : wr s (Sink.mk w (some k)) =
          EmitResult.mk (Sink.mk (w ++ [s]) (some k)) true := by
        unfold wr; simp [hk]
      rw [hw]
      have step : andThen (EmitResult.mk (Sink.mk (w ++ [s]) (some k)) true)
          (appendAll out) = appendAll out (Sink.mk (w ++ [s]) (some k)) := rfl
      rw [step, ih (w ++ [s]) k]
      have h1 : k - w.length = (k - (w.length + 1)) + 1 := by omega
      rw [h1, List.take_succ_cons]
      congr 1
      · simp
      · rw [decide_eq_decide]
        simp only [List.length_append, List.length_cons, List.length_nil]
        omega

/-! ### Each emitter writes exactly its pure chunk list -/

theorem write_node_label_emits (block : Nat) (mir : Mir) (num_cols : Nat)
    (init fini : Sink → EmitResult) (bs cs : List String)
    (hinit : ∀ t, init t = appendAll bs t)
    (hfini : ∀ t, fini t = appendAll cs t) :
    ∀ t, write_node_label block mir num_cols init fini t =
      appendAll (nodeLabelChunks block mir num_cols bs cs) t := by
  intro t
  have hstmt : ∀ u, (if (mir.basic_block_data block).statements.isEmpty
        then skip else
          eseq (wr "<tr><td align=\"left\" balign=\"left\">") <|
          eseq (emitList (fun statement => wr (escape statement ++ "<br/>"))
                  (mir.basic_block_data block).statements) <|
          wr "</td></tr>") u =
      appendAll (stmtChunks (mir.basic_block_data block).statements) u := by
    intro u
    unfold stmtChunks
    by_cases he : (mir.basic_block_data block).statements.isEmpty = true
    · simp only [he, if_pos]
      exact skip_emits u
    · simp only [he, if_neg, Bool.false_eq_true, not_false_iff]
      have hmid := emitList_emits
        (f := fun statement => wr (escape statement ++ "<br/>"))
        (g := fun statement => [escape statement ++ "<br/>"])
        (fun st u => wr_emits (escape st ++ "<br/>") u)
        (mir.basic_block_data block).statements
      have h := eseq_emits (wr_emits "<tr><td align=\"left\" balign=\"left\">")
        (eseq_emits hmid (wr_emits "</td></tr>")) u
      refine h.trans ?_
      congr 1
      rw [List.map_eq_flatMap]
      simp
  have h := eseq_emits
      (wr_emits "<table border=\"0\" cellborder=\"1\" cellspacing=\"0\">") <|
    eseq_emits (wr_emits ("<tr><td bgcolor=\"gray\" align=\"center\" colspan=\""
        ++ Nat.repr num_cols ++ "\">" ++ Nat.repr block ++ "</td></tr>")) <|
    eseq_emits hinit <|
    eseq_emits hstmt <|
    eseq_emits (wr_emits ("<tr><td align=\"left\">" ++
        escape_html (mir.basic_block_data block).terminator.head ++
        "</td></tr>")) <|
    eseq_emits hfini (wr_emits "</table>\n")
  refine (h t).trans ?_
  congr 1 <;>
    simp [nodeLabelChunks, tableOpenChunk, headerRowChunk, termRowChunk]

theorem write_node_emits (block : Nat) (mir : Mir) :
    ∀ t, write_node block mir t = appendAll (nodeChunks block mir) t := by
  intro t
  have h := eseq_emits
      (wr_emits ("    " ++ node block ++ " [shape=\"none\", label=<")) <|
    eseq_emits
      (write_node_label_emits block mir 1 skip skip [] []
        skip_emits skip_emits)
      (wr_emits ">];\n")
  refine (h t).trans ?_
  congr 1 <;> simp [nodeChunks]

theorem write_edges_emits (source : Nat) (mir : Mir) :
    ∀ t, write_edges source mir t = appendAll (edgesChunks source mir) t := by
  intro t
  have h := emitList_emits
    (f := fun p : Nat × String =>
      wr ("    " ++ node source ++ " -> " ++ node p.1 ++
          " [label=\"" ++ p.2 ++ "\"];\n"))
    (g := fun p => [edgeChunk source p.1 p.2])
    (fun p u => wr_emits _ u)
    (((mir.basic_block_data source).terminator.successors).zip
      ((mir.basic_block_data source).terminator.labels))
  refine (h t).trans ?_
  congr 1 <;> simp [edgesChunks, List.map_eq_flatMap]

theorem write_graph_label_emits (tcx : TyCtxt) (nid : Nat) (mir : Mir) :
    ∀ t, write_graph_label tcx nid mir t =
      appendAll (graphLabelChunks tcx nid mir) t := by
  intro t
  have harg : ∀ (p : Nat × ArgDecl) u,
      (eseq (if 0 < p.1 then wr ", " else skip) <|
        wr (argSlot p.1 ++ ": " ++ escape p.2.ty)) u =
      appendAll (argChunks p) u := by
    intro p u
    have h := eseq_emits
      (ite_emits (c := 0 < p.1) (wr_emits ", ") skip_emits)
      (wr_emits (argSlot p.1 ++ ": " ++ escape p.2.ty)) u
    exact h
  have hvar : ∀ (p : Nat × VarDecl) u,
      (eseq (wr "let ") <|
        eseq (if p.2.mutability = Mutability.Mut then wr "mut " else skip) <|
        wr (varSlot p.1 ++ ": " ++ escape p.2.ty ++ "; // " ++ p.2.name ++
            "<br align=\"left\"/>")) u =
      appendAll (varChunks p) u := by
    intro p u
    have h := eseq_emits (wr_emits "let ") <|
      eseq_emits
        (ite_emits (c := p.2.mutability = Mutability.Mut)
          (wr_emits "mut ") skip_emits)
        (wr_emits (varSlot p.1 ++ ": " ++ escape p.2.ty ++ "; // " ++
          p.2.name ++ "<br align=\"left\"/>"))
    exact h u
  have hret : ∀ u, (match mir.return_ty with
        | FnOutput.FnConverging ty => wr (escape ty)
        | FnOutput.FnDiverging => wr "!") u =
      appendAll [returnTyChunk mir.return_ty] u := by
    intro u
    cases mir.return_ty with
    | FnConverging ty => exact wr_emits (escape ty) u
    | FnDiverging => exact wr_emits "!" u
  have h := eseq_emits
      (wr_emits ("    label=<fn " ++ escape_html (tcx.path_to_string nid)
        ++ "(")) <|
    eseq_emits (emitList_emits harg mir.arg_decls.enum) <|
    eseq_emits (wr_emits ") -&gt; ") <|
    eseq_emits hret <|
    eseq_emits (wr_emits "<br align=\"left\"/>") <|
    eseq_emits (emitList_emits hvar mir.var_decls.enum) <|
    eseq_emits
      (emitList_emits
        (f := fun p : Nat × TempDecl =>
          wr ("let mut " ++ tempSlot p.1 ++ ": " ++ escape p.2.ty ++
              ";<br align=\"left\"/>"))
        (g := fun p => [tempChunk p])
        (fun p u => wr_emits _ u)
        mir.temp_decls.enum)
      (wr_emits ">;\n")
  refine (h t).trans ?_
  congr 1 <;> simp [graphLabelChunks, List.map_eq_flatMap]

theorem write_mir_graphviz_emits (tcx : TyCtxt) (pairs : List (Nat × Mir)) :
    ∀ t, write_mir_graphviz tcx pairs t =
      appendAll (mirOutput tcx pairs) t := by
  have hpair : ∀ (p : Nat × Mir) u,
      (eseq (wr ("digraph Mir_" ++ Nat.repr p.1 ++ " \x7b\n")) <|
        eseq (wr "    graph [fontname=\"monospace\"];\n") <|
        eseq (wr "    node [fontname=\"monospace\"];\n") <|
        eseq (wr "    edge [fontname=\"monospace\"];\n") <|
        eseq (write_graph_label tcx p.1 p.2) <|
        eseq (emitList (fun block => write_node block p.2)
                p.2.all_basic_blocks) <|
        eseq (emitList (fun source => write_edges source p.2)
                p.2.all_basic_blocks) <|
        wr "\x7d\n") u =
      appendAll (graphChunks tcx p) u := by
    intro p u
    have h := eseq_emits
        (wr_emits ("digraph Mir_" ++ Nat.repr p.1 ++ " \x7b\n")) <|
      eseq_emits (wr_emits "    graph [fontname=\"monospace\"];\n") <|
      eseq_emits (wr_emits "    node [fontname=\"monospace\"];\n") <|
      eseq_emits (wr_emits "    edge [fontname=\"monospace\"];\n") <|
      eseq_emits (write_graph_label_emits tcx p.1 p.2) <|
      eseq_emits
        (emitList_emits (fun block u => write_node_emits block p.2 u)
          p.2.all_basic_blocks) <|
      eseq_emits
        (emitList_emits (fun source u => write_edges_emits source p.2 u)
          p.2.all_basic_blocks)
        (wr_emits "\x7d\n")
    refine (h u).trans ?_
    congr 1 <;> simp [graphChunks]
  exact emitList_emits hpair pairs

/-! ### Injectivity of the decimal node identifier -/

/-- The decimal digit characters of `n`, most significant first. -/
def decChars (n : Nat) : List Char :=
  if h : n / 10 = 0 then [Nat.digitChar (n % 10)]
  else decChars (n / 10) ++ [Nat.digitChar (n % 10)]
decreasing_by
  exact Nat.div_lt_self (Nat.pos_of_ne_zero (fun hn => h (by simp [hn])))
    (by norm_num)

theorem toDigitsCore_eq_decChars :
    ∀ (fuel n : Nat), n < fuel → ∀ ds,
      Nat.toDigitsCore 10 fuel n ds = decChars n ++ ds := by
  intro fuel
  induction fuel with
  | zero => intro n hn ds; exact absurd hn (Nat.not_lt_zero n)
  | succ fuel ih =>
    intro n hn ds
    rw [decChars]
    by_cases h : n / 10 = 0
    · simp [Nat.toDigitsCore, h]
    · have hpos : 0 < n := Nat.pos_of_ne_zero (fun hn0 => h (by simp [hn0]))
      have hlt : n / 10 < n := Nat.div_lt_self hpos (by norm_num)
      simp only [Nat.toDigitsCore, h, if_neg, not_false_iff]
      rw [ih (n / 10) (by omega) (Nat.digitChar (n % 10) :: ds)]
      simp [h]

theorem repr_eq_decChars (n : Nat) :
    Nat.repr n = (decChars n).asString := by
  unfold Nat.repr Nat.toDigits
  rw [toDigitsCore_eq_decChars (n + 1) n (Nat.lt_succ_self n) []]
  simp

/-- Numeric value of a decimal digit character. -/
def digitVal (c : Char) : Nat := c.toNat - 48

/-- Numeric value of a most-significant-first decimal digit string. -/
def decVal (l : List Char) : Nat :=
  l.foldl (fun a c => 10 * a + digitVal c) 0

theorem digitVal_digitChar : ∀ d, d < 10 → digitVal (Nat.digitChar d) = d := by
  decide

theorem decVal_append (l : List Char) (c : Char) :
    decVal (l ++ [c]) = 10 * decVal l + digitVal c := by
  unfold decVal
  rw [List.foldl_append]
  rfl

theorem decVal_decChars : ∀ n, decVal (decChars n) = n := by
  intro n
  induction n using Nat.strongRecOn with
  | ind n ih =>
    rw [decChars]
    by_cases h : n / 10 = 0
    · have h10 : n < 10 := by
        by_contra hge
        have : 1 ≤ n / 10 := Nat.one_le_div_iff (by norm_num) |>.mpr (by omega)
        omega
      simp only [h, dif_pos]
      have : decVal [Nat.digitChar (n % 10)] = digitVal (Nat.digitChar (n % 10)) := by
        unfold decVal
        simp
      rw [this, digitVal_digitChar (n % 10) (Nat.mod_lt n (by norm_num))]
      exact Nat.mod_eq_of_lt h10
    · have hpos : 0 < n := Nat.pos_of_ne_zero (fun hn0 => h (by simp [hn0]))
      have hlt : n / 10 < n := Nat.div_lt_self hpos (by norm_num)
      simp only [h, dif_neg, not_false_iff]
      rw [decVal_append, ih (n / 10) hlt,
        digitVal_digitChar (n % 10) (Nat.mod_lt n (by norm_num))]
      exact Nat.div_add_mod n 10

theorem repr_injective {m n : Nat} (h : Nat.repr m = Nat.repr n) : m = n := by
  rw [repr_eq_decChars m, repr_eq_decChars n] at h
  have hlist : decChars m = decChars n := by
    simpa [List.asString] using congrArg String.data h
  calc m = decVal (decChars m) := (decVal_decChars m).symm
    _ = decVal (decChars n) := by rw [hlist]
    _ = n := decVal_decChars n

theorem node_injective : Function.Injective node := by
  intro i j h
  unfold node at h
  have hd := congrArg String.data h
  simp only [String.data_append] at hd
  have : ("bb".data ++ (Nat.repr i).data).drop 2 =
      ("bb".data ++ (Nat.repr j).data).drop 2 := by rw [hd]
  simp at this
  exact repr_injective (String.ext this)

/-- The chunks produced on a fresh never-failing sink are exactly the pure
chunk list of the emitter. -/
theorem emittedBy_eq (f : Sink → EmitResult) (out : List String)
    (hf : ∀ t, f t = appendAll out t) : emittedBy f = out := by
  unfold emittedBy
  rw [hf, appendAll_none out (Sink.mk [] none) rfl]
  simp

/-! ### Properties of the escaper -/

theorem escapeChar_no_raw (c x : Char) (hx : x ∈ escapeChar c) :
    x ≠ '<' ∧ x ≠ '>' ∧ x ≠ '"' := by
  unfold escapeChar at hx
  by_cases h1 : c = '&'
  · rw [if_pos h1] at hx
    exact (by decide : ∀ y ∈ "&amp;".data, y ≠ '<' ∧ y ≠ '>' ∧ y ≠ '"') x hx
  · rw [if_neg h1] at hx
    by_cases h2 : c = '"'
    · rw [if_pos h2] at hx
      exact (by decide : ∀ y ∈ "&quot;".data, y ≠ '<' ∧ y ≠ '>' ∧ y ≠ '"') x hx
    · rw [if_neg h2] at hx
      by_cases h3 : c = '<'
      · rw [if_pos h3] at hx
        exact (by decide : ∀ y ∈ "&lt;".data, y ≠ '<' ∧ y ≠ '>' ∧ y ≠ '"') x hx
      · rw [if_neg h3] at hx
        by_cases h4 : c = '>'
        · rw [if_pos h4] at hx
          exact (by decide : ∀ y ∈ "&gt;".data,
            y ≠ '<' ∧ y ≠ '>' ∧ y ≠ '"') x hx
        · rw [if_neg h4] at hx
          simp at hx
          subst hx
          exact ⟨h3, h4, h2⟩

theorem escapeChar_cases (c : Char) :
    escapeChar c = "&amp;".data ∨ escapeChar c = "&quot;".data ∨
    escapeChar c = "&lt;".data ∨ escapeChar c = "&gt;".data ∨
    (escapeChar c = [c] ∧ c ∉ (['&', '<', '>', '"'] : List Char)) := by
  unfold escapeChar
  by_cases h1 : c = '&'
  · rw [if_pos h1]; exact Or.inl rfl
  · rw [if_neg h1]
    by_cases h2 : c = '"'
    · rw [if_pos h2]; exact Or.inr (Or.inl rfl)
    · rw [if_neg h2]
      by_cases h3 : c = '<'
      · rw [if_pos h3]; exact Or.inr (Or.inr (Or.inl rfl))
      · rw [if_neg h3]
        by_cases h4 : c = '>'
        · rw [if_pos h4]; exact Or.inr (Or.inr (Or.inr (Or.inl rfl)))
        · rw [if_neg h4]
          refine Or.inr (Or.inr (Or.inr (Or.inr ⟨rfl, ?_⟩)))
          simp [h1, h2, h3, h4]

theorem escapeChar_id_of_clean (c : Char)
    (hc : c ∉ (['&', '<', '>', '"'] : List Char)) : escapeChar c = [c] := by
  simp only [List.mem_cons, List.mem_singleton, not_or] at hc
  unfold escapeChar
  rw [if_neg hc.1, if_neg hc.2.2.2.1, if_neg hc.2.1, if_neg hc.2.2.1]

theorem escape_html_id_of_clean (s : String)
    (hs : ∀ c ∈ s.data, c ∉ (['&', '<', '>', '"'] : List Char)) :
    escape_html s = s := by
  have hl : ∀ l : List Char, (∀ c ∈ l, c ∉ (['&', '<', '>', '"'] : List Char)) →
      l.flatMap escapeChar = l := by
    intro l
    induction l with
    | nil => intro _; rfl
    | cons c l ih =>
      intro hcl
      rw [List.flatMap_cons, escapeChar_id_of_clean c (hcl c (List.mem_cons_self c l)),
        ih (fun x hx => hcl x (List.mem_cons_of_mem c hx))]
      rfl
  apply String.ext
  show (s.data.flatMap escapeChar) = s.data
  exact hl s.data hs

/-! ### Concrete example inputs -/

/-- A concrete type context resolving every identifier to `"main"`. -/
def egTcx : TyCtxt := TyCtxt.mk (fun _ => "main")

/-- A concrete two-block graph: block 0 has one statement and a two-way
conditional terminator to blocks 0 and 1; block 1 is an empty block ending in
`return`. One argument, one mutable named variable, one temporary. -/
def egMir : Mir :=
  Mir.mk [ArgDecl.mk "i32"] [VarDecl.mk Mutability.Mut "i32" "x"]
    [TempDecl.mk "i32"] (FnOutput.FnConverging "i32")
    [BasicBlockData.mk ["_1 = Add(_2, _3)"]
       (Terminator.mk [0, 1] ["true", "false"] "if cond"),
     BasicBlockData.mk [] (Terminator.mk [] [] "return")]

/-! ### The claims -/

/-- C1: For every graph satisfying the Terminator invariant that successor and
label lists are index-aligned of equal length, the total number of edge
declarations written by the edge-emission pass equals the sum over all blocks
of that block's terminator successor count, and a block whose terminator has
zero successors contributes zero edge declarations. -/
theorem C1_edge_count_total (mir : Mir)
    (hlen : ∀ b ∈ mir.all_basic_blocks,
      ((mir.basic_block_data b).terminator.labels).length =
      ((mir.basic_block_data b).terminator.successors).length) :
    (emittedBy (emitList (fun source => write_edges source mir)
        mir.all_basic_blocks)).length =
      (mir.all_basic_blocks.map
        (fun b => ((mir.basic_block_data b).terminator.successors).length)).sum
    ∧ ∀ b ∈ mir.all_basic_blocks,
        (mir.basic_block_data b).terminator.successors = [] →
        emittedBy (write_edges b mir) = [] := by
  constructor
  · rw [emittedBy_eq _ _
      (emitList_emits (fun b u => write_edges_emits b mir u)
        mir.all_basic_blocks)]
    rw [List.length_flatMap]
    congr 1
    apply List.map_congr_left
    intro b hb
    show (edgesChunks b mir).length = _
    unfold edgesChunks
    rw [List.length_map, List.length_zip, hlen b hb]
    exact Nat.min_self _
  · intro b hb hsucc
    rw [emittedBy_eq _ _ (write_edges_emits b mir)]
    simp [edgesChunks, hsucc]

/-- C1 witness: on the concrete two-block example graph the edge pass writes
2 = 2 + 0 edge declarations, and the zero-successor block 1 writes none. -/
theorem C1_edge_count_total_witness :
    (emittedBy (emitList (fun source => write_edges source egMir)
        egMir.all_basic_blocks)).length = 2 ∧
    emittedBy (write_edges 1 egMir) = [] := by
  have h := C1_edge_count_total egMir (by decide)
  refine ⟨h.1.trans (by decide), h.2 1 (by decide) (by decide)⟩

/-- C2: The node-emission pass writes exactly one node declaration per block,
in block-index order for all `B` blocks; each declaration opens with the
identifier `"bb"` followed by the decimal block index; the identifier map is
injective (hence identifiers are unique per graph); and the edge-declaration
pass builds its endpoints with the same identifier function `node`. -/
theorem C2_node_declarations (mir : Mir) :
    emittedBy (emitList (fun block => write_node block mir)
        mir.all_basic_blocks) =
      (List.range mir.basic_blocks.length).flatMap
        (fun i => nodeChunks i mir)
    ∧ (List.range mir.basic_blocks.length).length = mir.basic_blocks.length
    ∧ (∀ i, (nodeChunks i mir).head? =
        some ("    " ++ node i ++ " [shape=\"none\", label=<"))
    ∧ (∀ i, node i = "bb" ++ Nat.repr i)
    ∧ Function.Injective node
    ∧ (∀ source target label, edgeChunk source target label =
        "    " ++ node source ++ " -> " ++ node target ++
          " [label=\"" ++ label ++ "\"];\n") := by
  refine ⟨?_, List.length_range _, fun i => rfl, fun i => rfl,
    node_injective, fun s t l => rfl⟩
  exact emittedBy_eq _ _
    (emitList_emits (fun b u => write_node_emits b mir u)
      mir.all_basic_blocks)

/-- C5: Under the equal-length Terminator invariant, the edge emitter writes
one edge chunk per successor, in the terminator's successor order, and the
chunk at index `i` is the edge from the source block's node identifier to the
node identifier of `successors[i]`, labelled with `labels[i]` verbatim (the
label string is spliced into the chunk with no escaping applied). -/
theorem C5_edge_order (source : Nat) (mir : Mir)
    (h : ((mir.basic_block_data source).terminator.labels).length =
         ((mir.basic_block_data source).terminator.successors).length) :
    emittedBy (write_edges source mir) = edgesChunks source mir
    ∧ (edgesChunks source mir).length =
        ((mir.basic_block_data source).terminator.successors).length
    ∧ ∀ i, i < ((mir.basic_block_data source).terminator.successors).length →
        (edgesChunks source mir).getD i "" =
          "    " ++ node source ++ " -> " ++
          node (((mir.basic_block_data source).terminator.successors).getD i 0)
          ++ " [label=\"" ++
          ((mir.basic_block_data source).terminator.labels).getD i "" ++
          "\"];\n" := by
  have hlen : (edgesChunks source mir).length =
      ((mir.basic_block_data source).terminator.successors).length := by
    unfold edgesChunks
    rw [List.length_map, List.length_zip, h]
    exact Nat.min_self _
  refine ⟨emittedBy_eq _ _ (write_edges_emits source mir), hlen, ?_⟩
  intro i hi
  have hiz : i < (((mir.basic_block_data source).terminator.successors).zip
      ((mir.basic_block_data source).terminator.labels)).length := by
    rw [List.length_zip, h]
    simpa using hi
  have hic : i < (edgesChunks source mir).length := by rw [hlen]; exact hi
  have his : i < ((mir.basic_block_data source).terminator.successors).length :=
    hi
  have hil : i < ((mir.basic_block_data source).terminator.labels).length := by
    rw [h]; exact hi
  rw [List.getD_eq_getElem _ _ hic,
    List.getD_eq_getElem _ _ his, List.getD_eq_getElem _ _ hil]
  simp only [edgesChunks, List.getElem_map, List.getElem_zip]
  rfl

/-- C5 witness: block 0 of the example graph, whose terminator has successor
list `[0, 1]` and labels `["true", "false"]`. -/
theorem C5_edge_order_witness :
    emittedBy (write_edges 0 egMir) = edgesChunks 0 egMir ∧
    (edgesChunks 0 egMir).getD 1 "" =
      "    bb0 -> bb1 [label=\"false\"];\n" := by
  have h := C5_edge_order 0 egMir (by decide)
  refine ⟨h.1, (h.2.2 1 (by decide)).trans (by decide)⟩

/-- C9: Edge emission is total and cannot fail except through the sink: on a
never-failing sink it always succeeds, appending exactly its chunk list, and
when the terminator's successor and label lists have different lengths the
number of emitted edge declarations is the minimum of the two lengths (the
longer list's extra entries are dropped by the zip). -/
theorem C9_zip_truncation (source : Nat) (mir : Mir) :
    (∀ t : Sink, t.failAt = none →
      (write_edges source mir t).ok = true ∧
      (write_edges source mir t).sink.written =
        t.written ++ edgesChunks source mir)
    ∧ (edgesChunks source mir).length =
        min ((mir.basic_block_data source).terminator.successors).length
            ((mir.basic_block_data source).terminator.labels).length := by
  constructor
  · intro t ht
    rw [write_edges_emits source mir t, appendAll_none _ t ht]
    exact ⟨rfl, rfl⟩
  · unfold edgesChunks
    rw [List.length_map, List.length_zip]

/-- C9 witness: a one-block graph whose terminator has 3 successors but only
1 label emits exactly `min 3 1 = 1` edge declaration and still succeeds. -/
theorem C9_zip_truncation_witness :
    (write_edges 0
        (Mir.mk [] [] [] FnOutput.FnDiverging
          [BasicBlockData.mk []
            (Terminator.mk [0, 0, 0] ["only"] "switch")])
        (Sink.mk [] none)).ok = true ∧
    (edgesChunks 0
        (Mir.mk [] [] [] FnOutput.FnDiverging
          [BasicBlockData.mk []
            (Terminator.mk [0, 0, 0] ["only"] "switch")])).length = 1 := by
  have h := C9_zip_truncation 0
    (Mir.mk [] [] [] FnOutput.FnDiverging
      [BasicBlockData.mk [] (Terminator.mk [0, 0, 0] ["only"] "switch")])
  exact ⟨(h.1 (Sink.mk [] none) rfl).1, h.2.trans (by decide)⟩

/-- C4: For every block and every pair of injection callbacks (each of which
appends a fixed list of chunks), the label table is written in exactly this
order: table opener, header row carrying the block index, the before-callback
rows, the statement row (a single row, present iff the statement list is
non-empty), the terminator-head-summary row, the after-callback rows, table
closer. -/
theorem C4_label_row_order (block : Nat) (mir : Mir) (num_cols : Nat)
    (init fini : Sink → EmitResult) (bs cs : List String)
    (hinit : ∀ t, init t = appendAll bs t)
    (hfini : ∀ t, fini t = appendAll cs t) :
    (∀ t, write_node_label block mir num_cols init fini t =
      appendAll ([tableOpenChunk, headerRowChunk num_cols block] ++ bs ++
        stmtChunks (mir.basic_block_data block).statements ++
        [termRowChunk (mir.basic_block_data block).terminator.head] ++ cs ++
        ["</table>\n"]) t)
    ∧ ((mir.basic_block_data block).statements = [] →
        stmtChunks (mir.basic_block_data block).statements = [])
    ∧ ((mir.basic_block_data block).statements ≠ [] →
        stmtChunks (mir.basic_block_data block).statements =
          ["<tr><td align=\"left\" balign=\"left\">"] ++
          (mir.basic_block_data block).statements.map
            (fun statement => escape statement ++ "<br/>") ++
          ["</td></tr>"])
    ∧ headerRowChunk num_cols block =
        "<tr><td bgcolor=\"gray\" align=\"center\" colspan=\"" ++
          Nat.repr num_cols ++ "\">" ++ Nat.repr block ++ "</td></tr>" := by
  refine ⟨write_node_label_emits block mir num_cols init fini bs cs hinit hfini,
    ?_, ?_, rfl⟩
  · intro he
    simp [stmtChunks, he]
  · intro hne
    have : (mir.basic_block_data block).statements.isEmpty = false := by
      simpa [List.isEmpty_iff] using hne
    simp [stmtChunks, this]

/-- C4 witness: block 0 of the example graph with one injected row on each
side, run on a fresh never-failing sink. -/
theorem C4_label_row_order_witness :
    write_node_label 0 egMir 2 (appendAll ["<tr><td>A</td></tr>"])
        (appendAll ["<tr><td>B</td></tr>"]) (Sink.mk [] none) =
      appendAll ([tableOpenChunk, headerRowChunk 2 0] ++
        ["<tr><td>A</td></tr>"] ++
        stmtChunks (egMir.basic_block_data 0).statements ++
        [termRowChunk (egMir.basic_block_data 0).terminator.head] ++
        ["<tr><td>B</td></tr>"] ++ ["</table>\n"]) (Sink.mk [] none) :=
  (C4_label_row_order 0 egMir 2 (appendAll ["<tr><td>A</td></tr>"])
    (appendAll ["<tr><td>B</td></tr>"]) ["<tr><td>A</td></tr>"]
    ["<tr><td>B</td></tr>"] (fun t => rfl) (fun t => rfl)).1
    (Sink.mk [] none)

/-- C8: For every block, the node emitter writes the opening chunk
`"    bbN [shape=\"none\", label=<"` — which sets the shape attribute to
`none`, suppressing the default node shape — followed by exactly the chunks
of the label-table renderer invoked with column count 1 and callbacks that
inject nothing, followed by the closing chunk. -/
theorem C8_node_shape_label (block : Nat) (mir : Mir) :
    (∀ t, write_node block mir t =
      appendAll (["    " ++ node block ++ " [shape=\"none\", label=<"] ++
        nodeLabelChunks block mir 1 [] [] ++ [">];\n"]) t)
    ∧ (∀ t, write_node_label block mir 1 skip skip t =
        appendAll (nodeLabelChunks block mir 1 [] []) t)
    ∧ ("    " ++ node block ++ " [shape=\"none\", label=<" =
        ("    " ++ node block ++ " [") ++ "shape=\"none\"" ++ ", label=<") := by
  refine ⟨fun t => write_node_emits block mir t,
    write_node_label_emits block mir 1 skip skip [] [] skip_emits skip_emits,
    ?_⟩
  apply String.ext
  simp [String.data_append]

/-- C7: In the caption, each named variable's line carries the `"mut "` chunk
iff its mutability flag is `Mut`; every temporary's line opens with
`"let mut "`; named-variable lines end with a trailing `//` comment carrying
the source name; temporary lines are exactly `let mut slot: ty;` with a line
break and no comment. -/
theorem C7_caption_mutability (tcx : TyCtxt) (nid : Nat) (mir : Mir) :
    (∀ t, write_graph_label tcx nid mir t =
      appendAll (graphLabelChunks tcx nid mir) t)
    ∧ graphLabelChunks tcx nid mir =
        ["    label=<fn " ++ escape_html (tcx.path_to_string nid) ++ "("] ++
          mir.arg_decls.enum.flatMap argChunks ++
          [") -&gt; ", returnTyChunk mir.return_ty, "<br align=\"left\"/>"] ++
          mir.var_decls.enum.flatMap varChunks ++
          mir.temp_decls.enum.map tempChunk ++ [">;\n"]
    ∧ (∀ p : Nat × VarDecl,
        ("mut " ∈ varChunks p ↔ p.2.mutability = Mutability.Mut))
    ∧ (∀ p : Nat × VarDecl, varChunks p =
        ["let "] ++
          (if p.2.mutability = Mutability.Mut then ["mut "] else []) ++
          [varSlot p.1 ++ ": " ++ escape p.2.ty ++ "; // " ++ p.2.name ++
            "<br align=\"left\"/>"])
    ∧ (∀ p : Nat × TempDecl, tempChunk p =
        "let mut " ++ tempSlot p.1 ++ ": " ++ escape p.2.ty ++
          ";<br align=\"left\"/>") := by
  refine ⟨write_graph_label_emits tcx nid mir, rfl, ?_, fun p => rfl,
    fun p => rfl⟩
  intro p
  constructor
  · intro hmem
    by_contra hnot
    have hline : ("mut " : String) ≠ varSlot p.1 ++ ": " ++ escape p.2.ty ++
        "; // " ++ p.2.name ++ "<br align=\"left\"/>" := by
      intro he
      have hh := congrArg (fun s : String => s.data.head?) he
      simp only [varSlot, String.data_append, List.cons_append,
        List.head?_cons] at hh
      exact absurd hh (by decide)
    rw [varChunks, if_neg hnot] at hmem
    simp only [List.append_nil, List.singleton_append, List.mem_cons,
      List.mem_singleton, List.not_mem_nil, or_false] at hmem
    rcases hmem with h1 | h2
    · exact absurd h1 (by decide)
    · exact hline h2
  · intro hmut
    rw [varChunks, if_pos hmut]
    simp

/-- C10: Emission is deterministic: on never-failing sinks, the chunks that
the top-level writer appends for a given input collection are always exactly
`mirOutput` — in particular, two runs over the same input (from any two sink
states) append byte-for-byte identical text. -/
theorem C10_deterministic (tcx : TyCtxt) (pairs : List (Nat × Mir))
    (t1 t2 : Sink) (h1 : t1.failAt = none) (h2 : t2.failAt = none) :
    ((write_mir_graphviz tcx pairs t1).sink.written).drop t1.written.length =
      mirOutput tcx pairs
    ∧ ((write_mir_graphviz tcx pairs t1).sink.written).drop t1.written.length =
      ((write_mir_graphviz tcx pairs t2).sink.written).drop
        t2.written.length := by
  have he : ∀ t : Sink, t.failAt = none →
      ((write_mir_graphviz tcx pairs t).sink.written).drop t.written.length =
        mirOutput tcx pairs := by
    intro t ht
    rw [write_mir_graphviz_emits tcx pairs t, appendAll_none _ t ht]
    exact List.drop_left _ _
  exact ⟨he t1 h1, (he t1 h1).trans (he t2 h2).symm⟩

/-- C10 witness: two runs over the example input from different sink states
append the same text. -/
theorem C10_deterministic_witness :
    ((write_mir_graphviz egTcx [(7, egMir)]
        (Sink.mk [] none)).sink.written).drop 0 =
      ((write_mir_graphviz egTcx [(7, egMir)]
        (Sink.mk ["already here"] none)).sink.written).drop 1 :=
  (C10_deterministic egTcx [(7, egMir)] (Sink.mk [] none)
    (Sink.mk ["already here"] none) rfl rfl).2

/-- C6: Fail-fast error propagation.  If the top-level writer fails on some
input prefix (the sink's failure point is hit), then: extending the input
with any further pairs changes nothing (no write is attempted for the current
or any later pair once a write has failed); the sink retains its prior
content followed by exactly the successfully-written prefix of the ideal
output, truncated at the first failing write; and the failure point lies
within this run's writes. -/
theorem C6_fail_fast (tcx : TyCtxt) (pairs more : List (Nat × Mir))
    (w : List String) (k : Nat)
    (hfail : (write_mir_graphviz tcx pairs (Sink.mk w (some k))).ok = false) :
    write_mir_graphviz tcx (pairs ++ more) (Sink.mk w (some k)) =
      write_mir_graphviz tcx pairs (Sink.mk w (some k))
    ∧ (write_mir_graphviz tcx pairs (Sink.mk w (some k))).sink.written =
        w ++ (mirOutput tcx pairs).take (k - w.length)
    ∧ k - w.length < (mirOutput tcx pairs).length := by
  have hrun := write_mir_graphviz_emits tcx pairs (Sink.mk w (some k))
  have hfl := appendAll_fail (mirOutput tcx pairs) w k
  have hlt : k - w.length < (mirOutput tcx pairs).length := by
    by_contra hge
    rw [hrun, hfl] at hfail
    simp only [decide_eq_false_iff_not, not_le] at hfail
    omega
  refine ⟨?_, ?_, hlt⟩
  · have hout : mirOutput tcx (pairs ++ more) =
        mirOutput tcx pairs ++ mirOutput tcx more := by
      unfold mirOutput
      exact List.flatMap_append pairs more (graphChunks tcx)
    rw [write_mir_graphviz_emits tcx (pairs ++ more) (Sink.mk w (some k)),
      hrun, hout, hfl, appendAll_fail]
    have htake : (mirOutput tcx pairs ++ mirOutput tcx more).take
        (k - w.length) = (mirOutput tcx pairs).take (k - w.length) :=
      List.take_append_of_le_length (Nat.le_of_lt hlt)
    rw [htake]
    have hdec : decide ((mirOutput tcx pairs ++ mirOutput tcx more).length ≤
        k - w.length) = decide ((mirOutput tcx pairs).length ≤
          k - w.length) := by
      rw [decide_eq_decide, List.length_append]
      omega
    rw [hdec]
  · rw [hrun, hfl]

/-- C6 witness: running the example input against a sink that fails from its
third write on fails, keeps the two written chunks plus nothing else, and is
unchanged by appending a further input pair. -/
theorem C6_fail_fast_witness :
    (write_mir_graphviz egTcx [(7, egMir)] (Sink.mk [] (some 2))).ok = false
    ∧ write_mir_graphviz egTcx ([(7, egMir)] ++ [(8, egMir)])
        (Sink.mk [] (some 2)) =
      write_mir_graphviz egTcx [(7, egMir)] (Sink.mk [] (some 2))
    ∧ (write_mir_graphviz egTcx [(7, egMir)]
        (Sink.mk [] (some 2))).sink.written =
      ["digraph Mir_7 \x7b\n", "    graph [fontname=\"monospace\"];\n"] := by
  have hok : (write_mir_graphviz egTcx [(7, egMir)]
      (Sink.mk [] (some 2))).ok = false := by decide
  have h := C6_fail_fast egTcx [(7, egMir)] [(8, egMir)] [] 2 hok
  exact ⟨hok, h.1, h.2.1.trans (by decide)⟩

/-- C3 counterexample: the escaper is not idempotent on already-escaped
input.  Escaping `"&"` yields `"&amp;"`; escaping that again yields
`"&amp;amp;"`, not `"&amp;"`. -/
theorem C3_counterexample :
    escape_html "&" = "&amp;" ∧ escape_html (escape_html "&") = "&amp;amp;" ∧
    escape_html (escape_html "&") ≠ escape_html "&" := by
  decide

/-- C3 (amended): the escaper is total and deterministic; its output never
contains a raw angle bracket or quote; its output decomposes into blocks,
each either one of the four escape entities or a single non-special
character (so every ampersand in the output starts an entity); and it is
the identity — hence idempotent — on input containing no special character.
It is NOT idempotent on output containing entities (see the
counterexample). -/
theorem C3_escape_amended (s : String) :
    (∀ x ∈ (escape_html s).data, x ≠ '<' ∧ x ≠ '>' ∧ x ≠ '"')
    ∧ (∃ blocks : List (List Char), (escape_html s).data = blocks.flatten ∧
        ∀ b ∈ blocks, b = "&amp;".data ∨ b = "&quot;".data ∨
          b = "&lt;".data ∨ b = "&gt;".data ∨
          ∃ c, b = [c] ∧ c ∉ (['&', '<', '>', '"'] : List Char))
    ∧ ((∀ c ∈ s.data, c ∉ (['&', '<', '>', '"'] : List Char)) →
        escape_html (escape_html s) = escape_html s) := by
  refine ⟨?_, ?_, ?_⟩
  · intro x hx
    have hx2 : x ∈ s.data.flatMap escapeChar := hx
    rw [List.mem_flatMap] at hx2
    obtain ⟨c, _, hc⟩ := hx2
    exact escapeChar_no_raw c x hc
  · refine ⟨s.data.map escapeChar, ?_, ?_⟩
    · rfl
    · intro b hb
      rw [List.mem_map] at hb
      obtain ⟨c, _, hc⟩ := hb
      subst hc
      rcases escapeChar_cases c with h | h | h | h | ⟨h, hcl⟩
      · exact Or.inl h
      · exact Or.inr (Or.inl h)
      · exact Or.inr (Or.inr (Or.inl h))
      · exact Or.inr (Or.inr (Or.inr (Or.inl h)))
      · exact Or.inr (Or.inr (Or.inr (Or.inr ⟨c, h, hcl⟩)))
  · intro hclean
    rw [escape_html_id_of_clean s hclean, escape_html_id_of_clean s hclean]

/-- C3 witness: applying the amended theorem at `"ab"`, a special-free
string on which the escaper is indeed idempotent. -/
theorem C3_escape_amended_witness :
    escape_html (escape_html "ab") = escape_html "ab" :=
  (C3_escape_amended "ab").2.2 (by decide)

end MirGraphviz
